import Mathlib

/-!
Verification of the GPflow excerpt consisting of the Sum-kernel expectation
rules (`gpflow/expectations/sums.py`) and the two variational GP models
(`gpflow/models/vgp.py`).

The expectation engine is embedded shallowly: child-kernel expectations are
opaque oracles (they are computed by other modules of the library), while the
Sum-kernel combination logic of `sums.py` is transcribed faithfully, including
Python's `functools.reduce` left fold, `itertools.product` iteration order and
the object-identity (`==` on objects with default equality) branch condition.
Objects that Python compares by reference carry an explicit object identifier.
-/

open Matrix

namespace GPflow

/-! ## Embedding of `gpflow/expectations/sums.py` -/

/-- A `Sum` kernel object: an object identifier (standing for the Python
object reference) together with the ordered list of child kernels. -/
structure SumKernel (K : Type) where
  oid : ℕ
  kernels : List K

/-- An `InducingPoints` object, identified by reference in the engine. -/
structure InducingPoints where
  oid : ℕ

/-- Python's `functools.reduce(tf.add, l)`: `none` on the empty list,
otherwise the left fold of addition starting from the head. -/
def pyReduceAdd {M : Type} [Add M] : List M → Option M
  | [] => none
  | x :: xs => some (xs.foldl (fun a b => a + b) x)

/-- Rule `_E(p, kernel : Sum, None, None, None)` for Gaussian `p`: the diagonal
self-expectation, summing the recursively dispatched child expectations.
`childE k` stands for `expectation(p, k, nghp=nghp)`. -/
def E_sum_diag {K M : Type} [Add M] (childE : K → M) (kernel : SumKernel K) : Option M :=
  pyReduceAdd (kernel.kernels.map (fun k => childE k))

/-- Rule `_E(p, kernel : Sum, inducing_variable, None, None)` for Gaussian `p`:
cross term of a Sum kernel against inducing points.
`childE k iv` stands for `expectation(p, (k, inducing_variable), nghp=nghp)`. -/
def E_sum_feat {K M : Type} [Add M] (childE : K → InducingPoints → M)
    (kernel : SumKernel K) (iv : InducingPoints) : Option M :=
  pyReduceAdd (kernel.kernels.map (fun k => childE k iv))

/-- Rule `_E(p, mean : Linear|Identity|Constant, None, kernel : Sum, inducing_variable)`
for Gaussian `p`: mean-function-times-Sum-kernel cross term.
`childE mean k iv` stands for `expectation(p, mean, (k, inducing_variable))`. -/
def E_mean_sum {K Mn M : Type} [Add M] (childE : Mn → K → InducingPoints → M)
    (mean : Mn) (kernel : SumKernel K) (iv : InducingPoints) : Option M :=
  pyReduceAdd (kernel.kernels.map (fun k => childE mean k iv))

/-- Rule `_E(p : MarkovGaussian, mean : Identity, None, kernel : Sum, inducing_variable)`:
the Markov-chain variant of the mean-times-Sum-kernel rule. -/
def E_markov_sum {K Mn M : Type} [Add M] (childE : Mn → K → InducingPoints → M)
    (mean : Mn) (kernel : SumKernel K) (iv : InducingPoints) : Option M :=
  pyReduceAdd (kernel.kernels.map (fun k => childE mean k iv))

/-- The list `crossexps` built by the symmetry-optimized branch of the double
Sum-kernel rule: iterating `i, k1 in enumerate(kern1.kernels)`, it appends the
diagonal term `expectation(p, (k1, feat1), (k1, feat1))` and then, for each
`k2 in kern1.kernels[:i]` (the accumulated `earlier` list), the term
`eKK + adjoint(eKK)` with `eKK = expectation(p, (k1, feat1), (k2, feat2))`. -/
def symRowTerms {K M : Type} [Add M]
    (childE2 : K → InducingPoints → K → InducingPoints → M) (adj : M → M)
    (feat1 feat2 : InducingPoints) : List K → List K → List M
  | _, [] => []
  | earlier, k1 :: rest =>
      (childE2 k1 feat1 k1 feat1 ::
          earlier.map (fun k2 => childE2 k1 feat1 k2 feat2 + adj (childE2 k1 feat1 k2 feat2))) ++
        symRowTerms childE2 adj feat1 feat2 (earlier ++ [k1]) rest

/-- The symmetry-optimized branch of the double Sum-kernel rule: reduce the
`crossexps` list built by `symRowTerms` (started with empty `earlier`). -/
def symmetryPath {K M : Type} [Add M]
    (childE2 : K → InducingPoints → K → InducingPoints → M) (adj : M → M)
    (kern1 : SumKernel K) (feat1 feat2 : InducingPoints) : Option M :=
  pyReduceAdd (symRowTerms childE2 adj feat1 feat2 [] kern1.kernels)

/-- The brute-force branch of the double Sum-kernel rule: every `(k1, k2)` in
`itertools.product(kern1.kernels, kern2.kernels)`, reduced by addition. -/
def cartesianPath {K M : Type} [Add M]
    (childE2 : K → InducingPoints → K → InducingPoints → M)
    (kern1 : SumKernel K) (feat1 : InducingPoints)
    (kern2 : SumKernel K) (feat2 : InducingPoints) : Option M :=
  pyReduceAdd (kern1.kernels.flatMap
    (fun k1 => kern2.kernels.map (fun k2 => childE2 k1 feat1 k2 feat2)))

/-- Rule `_E((Gaussian|DiagonalGaussian) p, kern1 : Sum, feat1, kern2 : Sum, feat2)`:
double Sum-kernel cross-covariance.  The branch condition transcribes
`kern1 == kern2 and feat1 == feat2`, which on these objects is Python's
default reference identity, here object-identifier equality. -/
def E_sum_sum {K M : Type} [Add M]
    (childE2 : K → InducingPoints → K → InducingPoints → M) (adj : M → M)
    (kern1 : SumKernel K) (feat1 : InducingPoints)
    (kern2 : SumKernel K) (feat2 : InducingPoints) : Option M :=
  if kern1.oid = kern2.oid ∧ feat1.oid = feat2.oid then
    symmetryPath childE2 adj kern1 feat1 feat2
  else
    cartesianPath childE2 kern1 feat1 kern2 feat2

/-! ### Helper lemmas about list reduction -/

theorem foldl_add_eq_sum {M : Type} [AddCommMonoid M] (x : M) (xs : List M) :
    xs.foldl (fun a b => a + b) x = x + xs.sum := by
  induction xs generalizing x with
  | nil => simp
  | cons y ys ih => simp [ih, add_assoc]

theorem pyReduceAdd_eq_sum {M : Type} [AddCommMonoid M] (l : List M) (h : l ≠ []) :
    pyReduceAdd l = some l.sum := by
  cases l with
  | nil => exact absurd rfl h
  | cons x xs => simp [pyReduceAdd, foldl_add_eq_sum]

theorem list_sum_map_add {β M : Type} [AddCommMonoid M] (l : List β) (f g : β → M) :
    (l.map (fun b => f b + g b)).sum = (l.map f).sum + (l.map g).sum := by
  induction l with
  | nil => simp
  | cons x xs ih =>
    simp only [List.map_cons, List.sum_cons, ih]
    abel

theorem list_sum_flatMap {β M : Type} [AddCommMonoid M] (l : List β) (h : β → List M) :
    (l.flatMap h).sum = (l.map (fun a => (h a).sum)).sum := by
  induction l with
  | nil => rfl
  | cons x xs ih => simp [ih]

theorem pi_list_sum_apply {β ι α : Type} [AddCommMonoid α] (l : List β) (f : β → ι → α)
    (x : ι) : (l.map f).sum x = (l.map (fun b => f b x)).sum := by
  induction l with
  | nil => rfl
  | cons y ys ih => simp [ih]

/-- Invariant of the symmetry-optimized accumulation: assuming the adjoint
mirror property of the child cross-expectations, the partial `crossexps` list
sums to all pairs within `rest` plus all mirrored pairs between `rest` and the
already-processed `earlier` prefix. -/
theorem symRowTerms_sum {K M : Type} [AddCommMonoid M]
    (childE2 : K → InducingPoints → K → InducingPoints → M) (adj : M → M)
    (f : InducingPoints)
    (hadj : ∀ a b, adj (childE2 a f b f) = childE2 b f a f) :
    ∀ (rest earlier : List K),
      (symRowTerms childE2 adj f f earlier rest).sum =
        (rest.flatMap (fun a => rest.map (fun b => childE2 a f b f))).sum +
          (rest.map (fun a => (earlier.map
            (fun b => childE2 a f b f + childE2 b f a f)).sum)).sum := by
  intro rest
  induction rest with
  | nil => intro earlier; simp [symRowTerms]
  | cons k tl ih =>
    intro earlier
    simp only [symRowTerms, hadj, List.sum_append, List.sum_cons, ih (earlier ++ [k]),
      List.map_append, List.map_cons, List.map_nil, List.sum_nil, add_zero,
      List.flatMap_cons, list_sum_flatMap, list_sum_map_add]
    abel

/-! ## Embedding of the dispatch registrations in `sums.py` -/

/-- Runtime tag of the input-distribution argument. -/
inductive DistTag
  | gaussian
  | diagonalGaussian
  | markovGaussian
deriving DecidableEq, Fintype

/-- Runtime tag of an operand slot (kernel / mean function / `None`). -/
inductive OpTag
  | sumKernel
  | linearMean
  | identityMean
  | constantMean
  | zeroMean
  | noObj
deriving DecidableEq, Fintype

/-- Runtime tag of a feature slot (`InducingPoints` or `None`). -/
inductive FeatTag
  | inducingPoints
  | noFeat
deriving DecidableEq, Fintype

/-- A dispatch-time type tuple `(p, obj1, feat1, obj2, feat2)`. -/
structure Request where
  dist : DistTag
  op1 : OpTag
  feat1 : FeatTag
  op2 : OpTag
  feat2 : FeatTag
deriving DecidableEq, Fintype

/-- One `dispatch.expectation.register(...)` call: the accepted type (or type
tuple) for each of the five slots. -/
structure RuleKey where
  dists : List DistTag
  op1s : List OpTag
  feat1 : FeatTag
  op2s : List OpTag
  feat2 : FeatTag

/-- The five registrations made by `sums.py`, in source order. -/
def sumsRegistry : List RuleKey :=
  [ ⟨[.gaussian], [.sumKernel], .noFeat, [.noObj], .noFeat⟩,
    ⟨[.gaussian], [.sumKernel], .inducingPoints, [.noObj], .noFeat⟩,
    ⟨[.gaussian], [.linearMean, .identityMean, .constantMean], .noFeat,
      [.sumKernel], .inducingPoints⟩,
    ⟨[.markovGaussian], [.identityMean], .noFeat, [.sumKernel], .inducingPoints⟩,
    ⟨[.gaussian, .diagonalGaussian], [.sumKernel], .inducingPoints,
      [.sumKernel], .inducingPoints⟩ ]

/-- A registered key accepts a request when every slot's runtime type is
among the key's accepted types. -/
def ruleMatches (r : RuleKey) (q : Request) : Prop :=
  q.dist ∈ r.dists ∧ q.op1 ∈ r.op1s ∧ q.feat1 = r.feat1 ∧ q.op2 ∈ r.op2s ∧ q.feat2 = r.feat2

instance (r : RuleKey) (q : Request) : Decidable (ruleMatches r q) := by
  unfold ruleMatches; infer_instance

/-- Some rule registered by `sums.py` matches the request. -/
def moduleHandles (q : Request) : Prop :=
  ∃ r ∈ sumsRegistry, ruleMatches r q

instance (q : Request) : Decidable (moduleHandles q) := by
  unfold moduleHandles; infer_instance

/-- The eight concrete type tuples covered by the five registrations. -/
def coveredRequests : List Request :=
  [ ⟨.gaussian, .sumKernel, .noFeat, .noObj, .noFeat⟩,
    ⟨.gaussian, .sumKernel, .inducingPoints, .noObj, .noFeat⟩,
    ⟨.gaussian, .linearMean, .noFeat, .sumKernel, .inducingPoints⟩,
    ⟨.gaussian, .identityMean, .noFeat, .sumKernel, .inducingPoints⟩,
    ⟨.gaussian, .constantMean, .noFeat, .sumKernel, .inducingPoints⟩,
    ⟨.markovGaussian, .identityMean, .noFeat, .sumKernel, .inducingPoints⟩,
    ⟨.gaussian, .sumKernel, .inducingPoints, .sumKernel, .inducingPoints⟩,
    ⟨.diagonalGaussian, .sumKernel, .inducingPoints, .sumKernel, .inducingPoints⟩ ]

/-! ## Claims about the expectation engine -/

/-- C1: for a double Sum-kernel cross-covariance request in which the two
kernel composites and the two inducing-variable operands are the same objects,
the symmetry-optimized path taken by the engine (diagonal terms plus
adjoint-derived mirror pairs) returns the same tensor as the brute-force path
that sums every `(i, j)` pair of the Cartesian product of children, given the
adjoint mirror property of the child cross-expectations. -/
theorem sum_sum_symmetry_matches_cartesian {K M : Type} [AddCommMonoid M]
    (childE2 : K → InducingPoints → K → InducingPoints → M) (adj : M → M)
    (kern : SumKernel K) (feat : InducingPoints)
    (hadj : ∀ a b, adj (childE2 a feat b feat) = childE2 b feat a feat) :
    E_sum_sum childE2 adj kern feat kern feat =
      cartesianPath childE2 kern feat kern feat := by
  have hbranch : E_sum_sum childE2 adj kern feat kern feat =
      symmetryPath childE2 adj kern feat feat := by
    simp [E_sum_sum]
  rw [hbranch]
  unfold symmetryPath cartesianPath
  cases hk : kern.kernels with
  | nil => simp [symRowTerms, pyReduceAdd]
  | cons k tl =>
    rw [pyReduceAdd_eq_sum _ (by simp [symRowTerms]),
      pyReduceAdd_eq_sum _ (by simp [List.flatMap_cons])]
    have h := symRowTerms_sum childE2 adj feat hadj (k :: tl) []
    simpa using h

theorem sum_sum_symmetry_matches_cartesian_witness :
    E_sum_sum (fun a _ b _ => (a * b : ℚ)) (fun x => x) ⟨7, [2, 3, 5]⟩ ⟨4⟩ ⟨7, [2, 3, 5]⟩ ⟨4⟩ =
      cartesianPath (fun a _ b _ => (a * b : ℚ)) ⟨7, [2, 3, 5]⟩ ⟨4⟩ ⟨7, [2, 3, 5]⟩ ⟨4⟩ :=
  sum_sum_symmetry_matches_cartesian (fun a _ b _ => (a * b : ℚ)) (fun x => x)
    ⟨7, [2, 3, 5]⟩ ⟨4⟩ (fun a b => mul_comm a b)

/-- C2: the double Sum-kernel rule takes the symmetry-optimized branch exactly
when the two kernel composites and the two inducing-variable operands are
respectively identical by reference (object-identifier equality); whenever the
references differ — in particular for structurally equal but distinct
objects — it evaluates the full Cartesian product. -/
theorem sum_sum_branch_iff_reference_identity {K M : Type} [Add M]
    (childE2 : K → InducingPoints → K → InducingPoints → M) (adj : M → M)
    (kern1 kern2 : SumKernel K) (feat1 feat2 : InducingPoints) :
    ((kern1.oid = kern2.oid ∧ feat1.oid = feat2.oid) →
      E_sum_sum childE2 adj kern1 feat1 kern2 feat2 =
        symmetryPath childE2 adj kern1 feat1 feat2) ∧
    (¬(kern1.oid = kern2.oid ∧ feat1.oid = feat2.oid) →
      E_sum_sum childE2 adj kern1 feat1 kern2 feat2 =
        cartesianPath childE2 kern1 feat1 kern2 feat2) := by
  constructor <;> intro h <;> simp [E_sum_sum, h]

theorem sum_sum_branch_iff_reference_identity_witness :
    (E_sum_sum (fun a _ b _ => (a * b : ℚ)) (fun x => x) ⟨0, [2, 3]⟩ ⟨5⟩ ⟨0, [2, 3]⟩ ⟨5⟩ =
      symmetryPath (fun a _ b _ => (a * b : ℚ)) (fun x => x) ⟨0, [2, 3]⟩ ⟨5⟩ ⟨5⟩) ∧
    (E_sum_sum (fun a _ b _ => (a * b : ℚ)) (fun x => x) ⟨0, [2, 3]⟩ ⟨5⟩ ⟨1, [2, 3]⟩ ⟨5⟩ =
      cartesianPath (fun a _ b _ => (a * b : ℚ)) ⟨0, [2, 3]⟩ ⟨5⟩ ⟨1, [2, 3]⟩ ⟨5⟩) :=
  ⟨(sum_sum_branch_iff_reference_identity _ _ _ _ _ _).1 (by exact ⟨rfl, rfl⟩),
   (sum_sum_branch_iff_reference_identity _ _ _ _ _ _).2 (by simp)⟩

/-- C3: each of the four single-Sum-kernel rules (diagonal self-expectation,
cross term against inducing points, mean-times-kernel cross term, and the
Markov-chain variant) returns the elementwise sum, over the children in list
order, of the recursively dispatched child expectations with all other
operands held fixed. -/
theorem sum_rules_linearity {K Mn ι α : Type} [AddCommMonoid α]
    (childE1 : K → ι → α) (childEc : K → InducingPoints → ι → α)
    (childEm childEmk : Mn → K → InducingPoints → ι → α)
    (mean : Mn) (iv : InducingPoints) (kernel : SumKernel K)
    (hne : kernel.kernels ≠ []) :
    E_sum_diag childE1 kernel =
      some (fun x => (kernel.kernels.map (fun k => childE1 k x)).sum) ∧
    E_sum_feat childEc kernel iv =
      some (fun x => (kernel.kernels.map (fun k => childEc k iv x)).sum) ∧
    E_mean_sum childEm mean kernel iv =
      some (fun x => (kernel.kernels.map (fun k => childEm mean k iv x)).sum) ∧
    E_markov_sum childEmk mean kernel iv =
      some (fun x => (kernel.kernels.map (fun k => childEmk mean k iv x)).sum) := by
  refine ⟨?_, ?_, ?_, ?_⟩ <;>
  · simp only [E_sum_diag, E_sum_feat, E_mean_sum, E_markov_sum]
    rw [pyReduceAdd_eq_sum _ (by simpa using hne)]
    congr 1
    funext x
    rw [pi_list_sum_apply]

/-- Concrete child-expectation oracle used by the C3 witness. -/
def c3childE1 : ℕ → Fin 1 → ℚ := fun k _ => (k : ℚ)

/-- Concrete cross-term oracle used by the C3 witness. -/
def c3childEc : ℕ → InducingPoints → Fin 1 → ℚ := fun k iv _ => (k : ℚ) + (iv.oid : ℚ)

/-- Concrete mean-times-kernel oracle used by the C3 witness. -/
def c3childEm : ℕ → ℕ → InducingPoints → Fin 1 → ℚ := fun m k _ _ => (m * k : ℚ)

/-- Concrete Markov-chain oracle used by the C3 witness. -/
def c3childEmk : ℕ → ℕ → InducingPoints → Fin 1 → ℚ := fun m k _ _ => (m + k : ℚ)

theorem sum_rules_linearity_witness :
    E_sum_diag c3childE1 ⟨0, [2, 3]⟩ =
      some (fun x => (([2, 3] : List ℕ).map (fun k => c3childE1 k x)).sum) ∧
    E_sum_feat c3childEc ⟨0, [2, 3]⟩ ⟨1⟩ =
      some (fun x => (([2, 3] : List ℕ).map (fun k => c3childEc k ⟨1⟩ x)).sum) ∧
    E_mean_sum c3childEm 5 ⟨0, [2, 3]⟩ ⟨1⟩ =
      some (fun x => (([2, 3] : List ℕ).map (fun k => c3childEm 5 k ⟨1⟩ x)).sum) ∧
    E_markov_sum c3childEmk 5 ⟨0, [2, 3]⟩ ⟨1⟩ =
      some (fun x => (([2, 3] : List ℕ).map (fun k => c3childEmk 5 k ⟨1⟩ x)).sum) :=
  sum_rules_linearity c3childE1 c3childEc c3childEm c3childEmk 5 ⟨1⟩ ⟨0, [2, 3]⟩ (by simp)

/-- C7: Sum-kernel expectations accumulate the per-child (or per-pair) terms
by a left-to-right fold of addition in child-list order — for the single-Sum
rules starting from the first child's expectation, and for the double-Sum
brute-force branch over the `itertools.product` list — and any two calls with
identical inputs return identical results. -/
theorem sum_accumulation_deterministic {K M : Type} [Add M]
    (childE1 : K → M)
    (childE2 : K → InducingPoints → K → InducingPoints → M)
    (n : ℕ) (k : K) (ks : List K)
    (kern1 kern2 : SumKernel K) (feat1 feat2 : InducingPoints) :
    (E_sum_diag childE1 ⟨n, k :: ks⟩ =
      some (ks.foldl (fun acc k2 => acc + childE1 k2) (childE1 k))) ∧
    (cartesianPath childE2 kern1 feat1 kern2 feat2 =
      pyReduceAdd (kern1.kernels.flatMap
        (fun k1 => kern2.kernels.map (fun k2 => childE2 k1 feat1 k2 feat2)))) ∧
    (∀ (childE1' : K → M) (kern' : SumKernel K),
      childE1' = childE1 → kern' = ⟨n, k :: ks⟩ →
      E_sum_diag childE1' kern' = E_sum_diag childE1 ⟨n, k :: ks⟩) := by
  refine ⟨?_, rfl, ?_⟩
  · simp [E_sum_diag, pyReduceAdd, List.foldl_map]
  · intro childE1' kern' h1 h2
    rw [h1, h2]

theorem sum_accumulation_deterministic_witness :
    (E_sum_diag (fun k => (k : ℚ)) ⟨0, [2, 3, 4]⟩ =
      some (([3, 4] : List ℕ).foldl (fun acc k2 => acc + (k2 : ℚ)) ((2 : ℕ) : ℚ))) ∧
    (E_sum_diag (fun k => (k : ℚ)) ⟨0, [2, 3, 4]⟩ = E_sum_diag (fun k => (k : ℚ)) ⟨0, [2, 3, 4]⟩) :=
  ⟨(sum_accumulation_deterministic (fun k => (k : ℚ))
      (fun a _ b _ => (a * b : ℚ)) 0 2 [3, 4] ⟨0, []⟩ ⟨0, []⟩ ⟨0⟩ ⟨0⟩).1,
   (sum_accumulation_deterministic (fun k => (k : ℚ))
      (fun a _ b _ => (a * b : ℚ)) 0 2 [3, 4] ⟨0, []⟩ ⟨0, []⟩ ⟨0⟩ ⟨0⟩).2.2 _ _ rfl rfl⟩

set_option maxRecDepth 8192 in
/-- C9: the Sum-kernel decomposition registry of `sums.py` matches exactly
the eight concrete type tuples arising from its five registrations: the
diagonal self-expectation, inducing-point cross term, and mean-times-kernel
cross term (Linear/Identity/Constant means) only under a full Gaussian; the
Markov-chain rule only for the Identity mean; and DiagonalGaussian only in
the double Sum-kernel cross-covariance rule.  Every other combination has no
matching rule in this module. -/
theorem sums_registry_coverage :
    ∀ q : Request, moduleHandles q ↔ q ∈ coveredRequests := by
  decide

/-! ## Embedding of `gpflow/models/vgp.py` — class `VGP`

Matrices are over an abstract linearly ordered field; the backend primitives
the model delegates to (Cholesky factorization, `gauss_kl`, the likelihood's
`variational_expectations`, the `conditional` primitive, `tf.math.log`,
`tf.linalg.triangular_solve`) are oracle parameters, constrained only by the
hypotheses a claim needs. -/

/-- Operation `tf.linalg.band_part(A, -1, 0)`: keep the lower triangle (including the
diagonal), zero elsewhere. -/
def bandPartLower {n : ℕ} {α : Type} [Zero α] (A : Matrix (Fin n) (Fin n) α) :
    Matrix (Fin n) (Fin n) α :=
  Matrix.of fun i j => if j ≤ i then A i j else 0

/-- Method `VGP.log_likelihood`: the ELBO computation of the whitened variational GP,
transcribed statement by statement (`K = kernel(X) + jitter*I`, `L = chol K`,
`fmean = L q_mu + mean(X)`, `fvar` from the lower-triangular `q_sqrt` slices,
then `sum(variational_expectations) - KL`). -/
def VGP_log_likelihood {N R : ℕ} {α : Type} [CommRing α]
    (chol : Matrix (Fin N) (Fin N) α → Matrix (Fin N) (Fin N) α)
    (gauss_kl : Matrix (Fin N) (Fin R) α → (Fin R → Matrix (Fin N) (Fin N) α) → α)
    (var_exp : Matrix (Fin N) (Fin R) α → Matrix (Fin N) (Fin R) α → Matrix (Fin N) (Fin R) α)
    (Kxx : Matrix (Fin N) (Fin N) α) (meanX : Matrix (Fin N) (Fin R) α)
    (q_mu : Matrix (Fin N) (Fin R) α) (q_sqrt : Fin R → Matrix (Fin N) (Fin N) α)
    (jitter : α) : α :=
  let KL := gauss_kl q_mu q_sqrt
  let K := Kxx + jitter • (1 : Matrix (Fin N) (Fin N) α)
  let L := chol K
  let fmean := L * q_mu + meanX
  let q_sqrt_dnn := fun r => bandPartLower (q_sqrt r)
  let LTA := fun r => L * q_sqrt_dnn r
  let fvar0 := fun r n => ∑ m, LTA r n m ^ 2
  let fvar : Matrix (Fin N) (Fin R) α := Matrix.of fun n r => fvar0 r n
  let v := var_exp fmean fvar
  (∑ n, ∑ r, v n r) - KL

/-- Method `VGP.predict_f`: delegate to the external `conditional` primitive and add
the mean function at the prediction points.  The `conditional` oracle takes
`(Xnew, X, kernel, q_mu, q_sqrt, full_cov, white)`. -/
def VGP_predict_f {X Kern Qmu Qsqrt Mean Var : Type} [Add Mean]
    (conditional : X → X → Kern → Qmu → Qsqrt → Bool → Bool → Mean × Var)
    (mean_function : X → Mean)
    (x_data : X) (kern : Kern) (q_mu : Qmu) (q_sqrt : Qsqrt)
    (predict_at : X) (full_cov : Bool) : Mean × Var :=
  let mv := conditional predict_at x_data kern q_mu q_sqrt full_cov true
  (mv.1 + mean_function predict_at, mv.2)

/-- C4: `VGP.log_likelihood` returns the sum over all entries of the
likelihood's variational expectations at `(fmean, fvar)` minus the
`gauss_kl` divergence, where `fmean = L q_mu + mean(X)` for
`L = chol(kernel(X,X) + jitter*I)` and `fvar`, in input-major `N x R` layout,
is the row-sum of squares of `L` times the lower-triangular part of the
corresponding `q_sqrt` slice. -/
theorem VGP_log_likelihood_spec {N R : ℕ} {α : Type} [CommRing α]
    (chol : Matrix (Fin N) (Fin N) α → Matrix (Fin N) (Fin N) α)
    (gauss_kl : Matrix (Fin N) (Fin R) α → (Fin R → Matrix (Fin N) (Fin N) α) → α)
    (var_exp : Matrix (Fin N) (Fin R) α → Matrix (Fin N) (Fin R) α → Matrix (Fin N) (Fin R) α)
    (Kxx : Matrix (Fin N) (Fin N) α) (meanX : Matrix (Fin N) (Fin R) α)
    (q_mu : Matrix (Fin N) (Fin R) α) (q_sqrt : Fin R → Matrix (Fin N) (Fin N) α)
    (jitter : α) :
    VGP_log_likelihood chol gauss_kl var_exp Kxx meanX q_mu q_sqrt jitter =
      (∑ n, ∑ r, var_exp
        (chol (Kxx + jitter • 1) * q_mu + meanX)
        (Matrix.of fun n r => ∑ m,
          (∑ j, chol (Kxx + jitter • 1) n j * (if m ≤ j then q_sqrt r j m else 0)) ^ 2)
        n r) - gauss_kl q_mu q_sqrt := by
  have hv : (Matrix.of fun n (r : Fin R) =>
        ∑ m, ((chol (Kxx + jitter • 1) * bandPartLower (q_sqrt r)) n m) ^ 2) =
      (Matrix.of fun n (r : Fin R) => ∑ m,
        (∑ j, chol (Kxx + jitter • 1) n j * (if m ≤ j then q_sqrt r j m else 0)) ^ 2) := by
    funext n r
    simp [Matrix.mul_apply, bandPartLower]
  simp only [VGP_log_likelihood]
  rw [← hv]

/-- C8: `VGP.predict_f` calls the external `conditional` primitive with the
whitened flag set to `true`, passing `q_mu` and `q_sqrt` unchanged, and
returns the conditional's mean plus the mean function at the prediction
points together with the conditional's variance unchanged. -/
theorem VGP_predict_f_spec {X Kern Qmu Qsqrt Mean Var : Type} [Add Mean]
    (conditional : X → X → Kern → Qmu → Qsqrt → Bool → Bool → Mean × Var)
    (mean_function : X → Mean)
    (x_data : X) (kern : Kern) (q_mu : Qmu) (q_sqrt : Qsqrt)
    (predict_at : X) (full_cov : Bool) :
    VGP_predict_f conditional mean_function x_data kern q_mu q_sqrt predict_at full_cov =
      ((conditional predict_at x_data kern q_mu q_sqrt full_cov true).1 +
          mean_function predict_at,
        (conditional predict_at x_data kern q_mu q_sqrt full_cov true).2) :=
  rfl

/-! ## Embedding of `gpflow/models/vgp.py` — class `VGPOpperArchambeau` -/

/-- The batched matrix `A` of `VGPOpperArchambeau.log_likelihood`:
`A = I + transpose(q_lambda)[:, None, :] * transpose(q_lambda)[:, :, None] * K`,
i.e. slice `l` has entries `I[i,j] + lambda[j,l] * lambda[i,l] * K[i,j]`. -/
def OA_A {N R : ℕ} {α : Type} [CommRing α] (K : Matrix (Fin N) (Fin N) α)
    (q_lambda : Matrix (Fin N) (Fin R) α) (l : Fin R) : Matrix (Fin N) (Fin N) α :=
  Matrix.of fun i j =>
    (1 : Matrix (Fin N) (Fin N) α) i j + q_lambda j l * q_lambda i l * K i j

/-- Method `VGPOpperArchambeau.log_likelihood`, transcribed statement by statement:
`K` is used directly (no jitter), per-output `A` is Cholesky-factored, the
inverse-related quantities come from a triangular solve of the identity, and
the KL term is `0.5 * (A_logdet + trAi - N*R + sum(K_alpha * q_alpha))`. -/
def OA_log_likelihood {N R : ℕ} {α : Type} [Field α]
    (chol : Matrix (Fin N) (Fin N) α → Matrix (Fin N) (Fin N) α)
    (tri_solve : Matrix (Fin N) (Fin N) α → Matrix (Fin N) (Fin N) α →
      Matrix (Fin N) (Fin N) α)
    (rlog : α → α)
    (var_exp : Matrix (Fin N) (Fin R) α → Matrix (Fin N) (Fin R) α → Matrix (Fin N) (Fin R) α)
    (K : Matrix (Fin N) (Fin N) α) (meanX : Matrix (Fin N) (Fin R) α)
    (q_alpha q_lambda : Matrix (Fin N) (Fin R) α) : α :=
  let K_alpha := K * q_alpha
  let f_mean := K_alpha + meanX
  let L := fun l => chol (OA_A K q_lambda l)
  let Li := fun l => tri_solve (L l) 1
  let tmp := fun l i j => Li l i j / q_lambda j l
  let f_var : Matrix (Fin N) (Fin R) α :=
    Matrix.of fun n r => 1 / q_lambda n r ^ 2 - ∑ i, tmp r i n ^ 2
  let A_logdet := 2 * ∑ l, ∑ i, rlog (L l i i)
  let trAi := ∑ l, ∑ i, ∑ j, Li l i j ^ 2
  let KL := (1 / 2 : α) *
    (A_logdet + trAi - (N : α) * (R : α) + ∑ i, ∑ r, K_alpha i r * q_alpha i r)
  let v := var_exp f_mean f_var
  (∑ n, ∑ r, v n r) - KL

/-- The batched matrix `A` of `VGPOpperArchambeau.predict_f`:
`A = K + diag(transpose(1 / q_lambda^2))`, slice `l` adding `1/lambda[i,l]^2`
on the diagonal. -/
def OA_predict_A {N R : ℕ} {α : Type} [Field α] (K : Matrix (Fin N) (Fin N) α)
    (q_lambda : Matrix (Fin N) (Fin R) α) (l : Fin R) : Matrix (Fin N) (Fin N) α :=
  K + Matrix.diagonal (fun i => 1 / q_lambda i l ^ 2)

/-- Method `VGPOpperArchambeau.predict_f`, transcribed statement by statement.  The
variance component is rank 3 (`[M, M, R]`, from `tf.transpose` reversing the
axes of the batched full covariance) in the `full_cov` branch and a matrix
(`[M, R]`) otherwise, hence the sum type. -/
def OA_predict_f {N M R : ℕ} {α : Type} [Field α]
    (chol : Matrix (Fin N) (Fin N) α → Matrix (Fin N) (Fin N) α)
    (tri_solve : Matrix (Fin N) (Fin N) α → Matrix (Fin N) (Fin M) α →
      Matrix (Fin N) (Fin M) α)
    (K : Matrix (Fin N) (Fin N) α) (Kx : Matrix (Fin N) (Fin M) α)
    (Kxx : Matrix (Fin M) (Fin M) α) (Kxxdiag : Fin M → α)
    (q_alpha q_lambda : Matrix (Fin N) (Fin R) α)
    (meanXnew : Matrix (Fin M) (Fin R) α) (full_cov : Bool) :
    Matrix (Fin M) (Fin R) α × ((Fin M → Fin M → Fin R → α) ⊕ Matrix (Fin M) (Fin R) α) :=
  let f_mean := Kxᵀ * q_alpha + meanXnew
  let L := fun l => chol (OA_predict_A K q_lambda l)
  let LiKx := fun l => tri_solve (L l) Kx
  if full_cov then
    let f_var := fun l => Kxx - (LiKx l)ᵀ * LiKx l
    (f_mean, Sum.inl fun m1 m2 l => f_var l m2 m1)
  else
    let f_var := fun l m => Kxxdiag m - ∑ i, LiKx l i m ^ 2
    (f_mean, Sum.inr (Matrix.of fun m l => f_var l m))

/-! ### Cholesky-oracle facts shared by the Opper-Archambeau claims -/

theorem lowerTri_det {n : ℕ} {α : Type} [CommRing α] (L : Matrix (Fin n) (Fin n) α)
    (hlow : ∀ i j, i < j → L i j = 0) : L.det = ∏ i, L i i := by
  refine Matrix.det_of_lowerTriangular L ?_
  intro i j hij
  exact hlow i j (OrderDual.toDual_lt_toDual.mp hij)

theorem lowerTri_pos_isUnit_det {n : ℕ} {α : Type} [LinearOrderedField α]
    (L : Matrix (Fin n) (Fin n) α)
    (hlow : ∀ i j, i < j → L i j = 0) (hpos : ∀ i, 0 < L i i) : IsUnit L.det := by
  rw [lowerTri_det L hlow]
  exact (Finset.prod_pos fun i _ => hpos i).ne'.isUnit

/-- A triangular solve against any right-hand side agrees with multiplication
by the true matrix inverse. -/
theorem solve_eq_inv_mul {n m : ℕ} {α : Type} [Field α]
    (L : Matrix (Fin n) (Fin n) α) (B Z : Matrix (Fin n) (Fin m) α)
    (hu : IsUnit L.det) (h : L * Z = B) : Z = L⁻¹ * B := by
  rw [← h, ← Matrix.mul_assoc, Matrix.nonsing_inv_mul L hu, Matrix.one_mul]

/-- An abstract logarithm that is additive on positive factors turns a
product of positives into a sum. -/
theorem rlog_prod {α : Type} [LinearOrderedField α] (rlog : α → α)
    (hlog1 : rlog 1 = 0)
    (hmul : ∀ x y, 0 < x → 0 < y → rlog (x * y) = rlog x + rlog y)
    {ι : Type} [DecidableEq ι] (s : Finset ι) (f : ι → α) (hf : ∀ i ∈ s, 0 < f i) :
    rlog (∏ i ∈ s, f i) = ∑ i ∈ s, rlog (f i) := by
  induction s using Finset.induction_on with
  | empty => simpa using hlog1
  | insert hx ih =>
    rename_i a s0
    rw [Finset.prod_insert hx, Finset.sum_insert hx,
      hmul _ _ (hf a (Finset.mem_insert_self a s0))
        (Finset.prod_pos fun i hi => hf i (Finset.mem_insert_of_mem hi)),
      ih fun i hi => hf i (Finset.mem_insert_of_mem hi)]

/-- Identity `log det A = 2 * sum(log(diag L))` for a Cholesky factorization
`A = L Lᵀ` with lower-triangular `L` of positive diagonal. -/
theorem chol_logdet {n : ℕ} {α : Type} [LinearOrderedField α] (rlog : α → α)
    (hlog1 : rlog 1 = 0)
    (hmul : ∀ x y, 0 < x → 0 < y → rlog (x * y) = rlog x + rlog y)
    (A L : Matrix (Fin n) (Fin n) α)
    (hfac : L * Lᵀ = A) (hlow : ∀ i j, i < j → L i j = 0) (hpos : ∀ i, 0 < L i i) :
    rlog A.det = 2 * ∑ i, rlog (L i i) := by
  have hd : L.det = ∏ i, L i i := lowerTri_det L hlow
  have hdpos : 0 < L.det := hd ▸ Finset.prod_pos fun i _ => hpos i
  have hA : A.det = L.det * L.det := by
    rw [← hfac, Matrix.det_mul, Matrix.det_transpose]
  rw [hA, hmul _ _ hdpos hdpos, hd,
    rlog_prod rlog hlog1 hmul Finset.univ (fun i => L i i) fun i _ => hpos i, two_mul]

/-- Identity `trace (A⁻¹) = sum of squares of the triangular-solve result` for a
Cholesky factorization `A = L Lᵀ` with `L * Li = 1`. -/
theorem chol_trace_inv {n : ℕ} {α : Type} [Field α]
    (A L Li : Matrix (Fin n) (Fin n) α)
    (hfac : L * Lᵀ = A) (hsolve : L * Li = 1) :
    Matrix.trace A⁻¹ = ∑ i, ∑ j, Li i j ^ 2 := by
  have hLi : L⁻¹ = Li := Matrix.inv_eq_right_inv hsolve
  have hAinv : A⁻¹ = Liᵀ * Li := by
    rw [← hfac, Matrix.mul_inv_rev, ← Matrix.transpose_nonsing_inv, hLi]
  rw [hAinv]
  simp only [Matrix.trace, Matrix.diag, Matrix.mul_apply, Matrix.transpose_apply]
  rw [Finset.sum_comm]
  exact Finset.sum_congr rfl fun i _ => Finset.sum_congr rfl fun j _ => (sq (Li i j)).symm

/-- C5: `VGPOpperArchambeau.log_likelihood` uses `K` with no added jitter,
builds per-output `A_l = I + lambda_l lambda_lᵀ ∘ K`, Cholesky-factors each
`A_l`, obtains the inverse-related quantities by a triangular solve against
the identity (shown equal to the true matrix inverse), and its KL term equals
`(1/2) (Σ_l logdet A_l + Σ_l trace A_l⁻¹ - N·R + Σ (K q_alpha ∘ q_alpha))`. -/
theorem OA_log_likelihood_spec {N R : ℕ} {α : Type} [LinearOrderedField α]
    (chol : Matrix (Fin N) (Fin N) α → Matrix (Fin N) (Fin N) α)
    (tri_solve : Matrix (Fin N) (Fin N) α → Matrix (Fin N) (Fin N) α →
      Matrix (Fin N) (Fin N) α)
    (rlog : α → α)
    (var_exp : Matrix (Fin N) (Fin R) α → Matrix (Fin N) (Fin R) α → Matrix (Fin N) (Fin R) α)
    (K : Matrix (Fin N) (Fin N) α) (meanX q_alpha q_lambda : Matrix (Fin N) (Fin R) α)
    (hlog1 : rlog 1 = 0)
    (hmul : ∀ x y, 0 < x → 0 < y → rlog (x * y) = rlog x + rlog y)
    (hfac : ∀ l, chol (OA_A K q_lambda l) * (chol (OA_A K q_lambda l))ᵀ = OA_A K q_lambda l)
    (hlow : ∀ l i j, i < j → chol (OA_A K q_lambda l) i j = 0)
    (hpos : ∀ l i, 0 < chol (OA_A K q_lambda l) i i)
    (hsolve : ∀ l, chol (OA_A K q_lambda l) * tri_solve (chol (OA_A K q_lambda l)) 1 = 1) :
    (∀ l i j, OA_A K q_lambda l i j =
        (if i = j then 1 else 0) + q_lambda i l * q_lambda j l * K i j) ∧
    OA_log_likelihood chol tri_solve rlog var_exp K meanX q_alpha q_lambda =
      (∑ n, ∑ r, var_exp (K * q_alpha + meanX)
        (Matrix.of fun n r => 1 / q_lambda n r ^ 2 -
          ∑ i, ((chol (OA_A K q_lambda r))⁻¹ i n / q_lambda n r) ^ 2) n r) -
      (1 / 2 : α) * ((∑ l, rlog ((OA_A K q_lambda l).det)) +
        (∑ l, Matrix.trace (OA_A K q_lambda l)⁻¹) -
        (N : α) * (R : α) + ∑ i, ∑ r, (K * q_alpha) i r * q_alpha i r) := by
  constructor
  · intro l i j
    simp only [OA_A, Matrix.of_apply, Matrix.one_apply]
    ring
  · have hLi : ∀ l, tri_solve (chol (OA_A K q_lambda l)) 1 = (chol (OA_A K q_lambda l))⁻¹ :=
      fun l => (Matrix.inv_eq_right_inv (hsolve l)).symm
    have hld : ∑ l, rlog ((OA_A K q_lambda l).det) =
        2 * ∑ l, ∑ i, rlog (chol (OA_A K q_lambda l) i i) := by
      rw [Finset.mul_sum]
      exact Finset.sum_congr rfl fun l _ =>
        chol_logdet rlog hlog1 hmul _ _ (hfac l) (hlow l) (hpos l)
    have htr : ∑ l, Matrix.trace (OA_A K q_lambda l)⁻¹ =
        ∑ l, ∑ i, ∑ j, tri_solve (chol (OA_A K q_lambda l)) 1 i j ^ 2 := by
      refine Finset.sum_congr rfl fun l _ => ?_
      rw [chol_trace_inv _ _ _ (hfac l) (hsolve l)]
    rw [hld, htr]
    simp only [OA_log_likelihood, hLi]

/-- Concrete all-ones matrix used by the Opper-Archambeau witnesses. -/
def onesMat11 : Matrix (Fin 1) (Fin 1) ℚ := Matrix.of fun _ _ => 1

/-- Concrete Cholesky oracle used by the Opper-Archambeau witnesses. -/
def oneChol : Matrix (Fin 1) (Fin 1) ℚ → Matrix (Fin 1) (Fin 1) ℚ := fun _ => 1

/-- Concrete triangular-solve oracle (identity right-hand side) for the C5 witness. -/
def oneSolveId : Matrix (Fin 1) (Fin 1) ℚ → Matrix (Fin 1) (Fin 1) ℚ →
    Matrix (Fin 1) (Fin 1) ℚ := fun _ _ => 1

/-- Concrete triangular-solve oracle (zero right-hand side) for the C6 witness. -/
def zeroSolve : Matrix (Fin 1) (Fin 1) ℚ → Matrix (Fin 1) (Fin 1) ℚ →
    Matrix (Fin 1) (Fin 1) ℚ := fun _ _ => 0

/-- Concrete logarithm oracle (additive on positives) for the C5 witness. -/
def zeroLog : ℚ → ℚ := fun _ => 0

/-- Concrete variational-expectations oracle for the C5 witness. -/
def zeroVexp : Matrix (Fin 1) (Fin 1) ℚ → Matrix (Fin 1) (Fin 1) ℚ →
    Matrix (Fin 1) (Fin 1) ℚ := fun _ _ => 0

/-- Concrete diagonal-kernel oracle for the C6 witness. -/
def zeroDiag : Fin 1 → ℚ := fun _ => 0

theorem fin_one_not_lt (i j : Fin 1) : ¬ i < j := by
  intro h
  have hij : (i : ℕ) < (j : ℕ) := h
  have hj := j.isLt
  omega

theorem OA_A_zeroK_eq_one (l : Fin 1) : OA_A (0 : Matrix (Fin 1) (Fin 1) ℚ) onesMat11 l = 1 := by
  ext i j
  simp [OA_A, onesMat11]

theorem OA_log_likelihood_spec_witness :
    (OA_A (0 : Matrix (Fin 1) (Fin 1) ℚ) onesMat11 0 0 0 =
      (if (0 : Fin 1) = 0 then 1 else 0) + onesMat11 0 0 * onesMat11 0 0 *
        (0 : Matrix (Fin 1) (Fin 1) ℚ) 0 0) ∧
    OA_log_likelihood oneChol oneSolveId zeroLog zeroVexp
        (0 : Matrix (Fin 1) (Fin 1) ℚ) 0 0 onesMat11 =
      (∑ n : Fin 1, ∑ r : Fin 1, zeroVexp
        ((0 : Matrix (Fin 1) (Fin 1) ℚ) * (0 : Matrix (Fin 1) (Fin 1) ℚ) + 0)
        (Matrix.of fun n r => 1 / onesMat11 n r ^ 2 -
          ∑ i, ((oneChol (OA_A 0 onesMat11 r))⁻¹ i n / onesMat11 n r) ^ 2) n r) -
      (1 / 2 : ℚ) *
        ((∑ l : Fin 1, zeroLog ((OA_A (0 : Matrix (Fin 1) (Fin 1) ℚ) onesMat11 l).det)) +
        (∑ l : Fin 1, Matrix.trace (OA_A (0 : Matrix (Fin 1) (Fin 1) ℚ) onesMat11 l)⁻¹) -
        ((1 : ℕ) : ℚ) * ((1 : ℕ) : ℚ) +
        ∑ i : Fin 1, ∑ r : Fin 1,
          ((0 : Matrix (Fin 1) (Fin 1) ℚ) * (0 : Matrix (Fin 1) (Fin 1) ℚ)) i r *
          (0 : Matrix (Fin 1) (Fin 1) ℚ) i r) := by
  have h := OA_log_likelihood_spec oneChol oneSolveId zeroLog zeroVexp
    (0 : Matrix (Fin 1) (Fin 1) ℚ) 0 0 onesMat11 rfl
    (by intro x y hx hy; simp [zeroLog])
    (by intro l; rw [OA_A_zeroK_eq_one l]; simp [oneChol])
    (by intro l i j hij; exact absurd hij (fin_one_not_lt i j))
    (by intro l i; simp [oneChol, Matrix.one_apply])
    (by intro l; simp [oneChol, oneSolveId])
  exact ⟨h.1 0 0 0, h.2⟩

/-- C6: `VGPOpperArchambeau.predict_f` computes the mean `Kxᵀ q_alpha +
mean(Xnew)`, forms `A = K + diag(1/lambda²)` per latent output,
Cholesky-factors it, solves `L⁻¹ Kx` by a batched triangular solve (shown
equal to multiplication by the true inverse), and returns
`kernel(Xnew,Xnew) − (L⁻¹Kx)ᵀ (L⁻¹Kx)` under full covariance and
`kernel-diagonal(Xnew) − column sums of squares of L⁻¹Kx` otherwise, with
the variance transposed to input-major layout. -/
theorem OA_predict_f_spec {N M R : ℕ} {α : Type} [LinearOrderedField α]
    (chol : Matrix (Fin N) (Fin N) α → Matrix (Fin N) (Fin N) α)
    (tri_solve : Matrix (Fin N) (Fin N) α → Matrix (Fin N) (Fin M) α →
      Matrix (Fin N) (Fin M) α)
    (K : Matrix (Fin N) (Fin N) α) (Kx : Matrix (Fin N) (Fin M) α)
    (Kxx : Matrix (Fin M) (Fin M) α) (Kxxdiag : Fin M → α)
    (q_alpha q_lambda : Matrix (Fin N) (Fin R) α)
    (meanXnew : Matrix (Fin M) (Fin R) α)
    (hlow : ∀ l i j, i < j → chol (OA_predict_A K q_lambda l) i j = 0)
    (hpos : ∀ l i, 0 < chol (OA_predict_A K q_lambda l) i i)
    (hsolve : ∀ l, chol (OA_predict_A K q_lambda l) *
        tri_solve (chol (OA_predict_A K q_lambda l)) Kx = Kx) :
    (∀ l i j, OA_predict_A K q_lambda l i j =
        K i j + (if i = j then 1 / q_lambda i l ^ 2 else 0)) ∧
    (∀ l, tri_solve (chol (OA_predict_A K q_lambda l)) Kx =
        (chol (OA_predict_A K q_lambda l))⁻¹ * Kx) ∧
    OA_predict_f chol tri_solve K Kx Kxx Kxxdiag q_alpha q_lambda meanXnew true =
      (Kxᵀ * q_alpha + meanXnew,
        Sum.inl fun m1 m2 l =>
          (Kxx - ((chol (OA_predict_A K q_lambda l))⁻¹ * Kx)ᵀ *
            ((chol (OA_predict_A K q_lambda l))⁻¹ * Kx)) m2 m1) ∧
    OA_predict_f chol tri_solve K Kx Kxx Kxxdiag q_alpha q_lambda meanXnew false =
      (Kxᵀ * q_alpha + meanXnew,
        Sum.inr (Matrix.of fun m l => Kxxdiag m -
          ∑ i, (((chol (OA_predict_A K q_lambda l))⁻¹ * Kx) i m) ^ 2)) := by
  have hinv : ∀ l, tri_solve (chol (OA_predict_A K q_lambda l)) Kx =
      (chol (OA_predict_A K q_lambda l))⁻¹ * Kx := fun l =>
    solve_eq_inv_mul _ _ _ (lowerTri_pos_isUnit_det _ (hlow l) (hpos l)) (hsolve l)
  refine ⟨?_, hinv, ?_, ?_⟩
  · intro l i j
    simp [OA_predict_A, Matrix.diagonal_apply, Matrix.add_apply]
  · simp only [OA_predict_f, if_true, hinv]
  · simp only [OA_predict_f, Bool.false_eq_true, if_false, hinv]

theorem OA_predict_f_spec_witness :
    (OA_predict_A (0 : Matrix (Fin 1) (Fin 1) ℚ) onesMat11 0 0 0 =
      (0 : Matrix (Fin 1) (Fin 1) ℚ) 0 0 +
        (if (0 : Fin 1) = 0 then 1 / onesMat11 0 0 ^ 2 else 0)) ∧
    (zeroSolve (oneChol (OA_predict_A (0 : Matrix (Fin 1) (Fin 1) ℚ) onesMat11 0))
        (0 : Matrix (Fin 1) (Fin 1) ℚ) =
      (oneChol (OA_predict_A (0 : Matrix (Fin 1) (Fin 1) ℚ) onesMat11 0))⁻¹ *
        (0 : Matrix (Fin 1) (Fin 1) ℚ)) ∧
    (OA_predict_f oneChol zeroSolve (0 : Matrix (Fin 1) (Fin 1) ℚ) 0 0 zeroDiag
        0 onesMat11 0 true =
      ((0 : Matrix (Fin 1) (Fin 1) ℚ)ᵀ * (0 : Matrix (Fin 1) (Fin 1) ℚ) + 0,
        Sum.inl fun m1 m2 l =>
          ((0 : Matrix (Fin 1) (Fin 1) ℚ) -
            ((oneChol (OA_predict_A 0 onesMat11 l))⁻¹ * (0 : Matrix (Fin 1) (Fin 1) ℚ))ᵀ *
            ((oneChol (OA_predict_A 0 onesMat11 l))⁻¹ *
              (0 : Matrix (Fin 1) (Fin 1) ℚ))) m2 m1)) ∧
    (OA_predict_f oneChol zeroSolve (0 : Matrix (Fin 1) (Fin 1) ℚ) 0 0 zeroDiag
        0 onesMat11 0 false =
      ((0 : Matrix (Fin 1) (Fin 1) ℚ)ᵀ * (0 : Matrix (Fin 1) (Fin 1) ℚ) + 0,
        Sum.inr (Matrix.of fun m l => zeroDiag m -
          ∑ i, (((oneChol (OA_predict_A 0 onesMat11 l))⁻¹ *
            (0 : Matrix (Fin 1) (Fin 1) ℚ)) i m) ^ 2))) := by
  have h := OA_predict_f_spec oneChol zeroSolve (0 : Matrix (Fin 1) (Fin 1) ℚ) 0 0 zeroDiag
    0 onesMat11 0
    (by intro l i j hij; exact absurd hij (fin_one_not_lt i j))
    (by
      intro l i
      have hA : OA_predict_A (0 : Matrix (Fin 1) (Fin 1) ℚ) onesMat11 l = 1 := by
        ext a b
        simp [OA_predict_A, onesMat11, Matrix.diagonal_apply, Matrix.one_apply]
      rw [hA]
      simp [oneChol, Matrix.one_apply])
    (by intro l; simp [oneChol, zeroSolve])
  exact ⟨h.1 0 0 0, h.2.1 0, h.2.2.1, h.2.2.2⟩

/-! ### `VGPOpperArchambeau.__init__` -/

/-- A mean-function collaborator: gpflow's `Zero()` or an opaque external
mean-function object. -/
inductive MeanFunctionObj where
  | zero
  | custom (fid : ℕ)

/-- Evaluation of a mean-function object at the training inputs; `interp`
interprets the opaque custom objects, `Zero()` evaluates to the zero matrix. -/
def evalMeanFn {N R : ℕ} {α : Type} [Zero α] (interp : ℕ → Matrix (Fin N) (Fin R) α) :
    MeanFunctionObj → Matrix (Fin N) (Fin R) α
  | .zero => 0
  | .custom i => interp i

/-- The state a `VGPOpperArchambeau` model owns after construction. -/
structure OAModelState (α : Type) (N R : ℕ) where
  mean_function : MeanFunctionObj
  q_alpha : Matrix (Fin N) (Fin R) α
  q_lambda : Matrix (Fin N) (Fin R) α

/-- Constructor `VGPOpperArchambeau.__init__`: substitute `Zero()` for a missing mean
function (`Zero() if mean_function is None else mean_function`), set
`q_alpha` to the `N x L` zero matrix and `q_lambda` to the `N x L` all-ones
matrix (held under a positivity transform). -/
def VGPOpperArchambeau_init (α : Type) [Zero α] [One α] (N R : ℕ)
    (mean_function : Option MeanFunctionObj) : OAModelState α N R :=
  { mean_function := match mean_function with
      | none => MeanFunctionObj.zero
      | some m => m
    q_alpha := 0
    q_lambda := Matrix.of fun _ _ => 1 }

/-- Quantity `f_mean = K q_alpha + mean(X)` as computed at the training inputs by
`VGPOpperArchambeau.log_likelihood` (`K_alpha = K q_alpha`;
`f_mean = K_alpha + mean`). -/
def OA_f_mean {N R : ℕ} {α : Type} [CommRing α]
    (K : Matrix (Fin N) (Fin N) α) (q_alpha meanX : Matrix (Fin N) (Fin R) α) :
    Matrix (Fin N) (Fin R) α :=
  K * q_alpha + meanX

/-- C10: constructing a `VGPOpperArchambeau` model with no mean function
substitutes the Zero mean function; any fresh model has `q_alpha = 0` and
`q_lambda` all ones (hence strictly positive), and its posterior mean at the
training inputs equals the mean function alone. -/
theorem OA_init_spec {α : Type} [LinearOrderedField α] {N R : ℕ}
    (mf : Option MeanFunctionObj) (K : Matrix (Fin N) (Fin N) α)
    (interp : ℕ → Matrix (Fin N) (Fin R) α) :
    (VGPOpperArchambeau_init α N R none).mean_function = MeanFunctionObj.zero ∧
    (VGPOpperArchambeau_init α N R mf).q_alpha = 0 ∧
    (VGPOpperArchambeau_init α N R mf).q_lambda = Matrix.of (fun _ _ => 1) ∧
    (∀ i j, 0 < (VGPOpperArchambeau_init α N R mf).q_lambda i j) ∧
    OA_f_mean K (VGPOpperArchambeau_init α N R mf).q_alpha
        (evalMeanFn interp (VGPOpperArchambeau_init α N R mf).mean_function) =
      evalMeanFn interp (VGPOpperArchambeau_init α N R mf).mean_function := by
  refine ⟨rfl, rfl, rfl, fun i j => ?_, ?_⟩
  · show (0 : α) < 1
    exact one_pos
  · simp [OA_f_mean, VGPOpperArchambeau_init]

end GPflow
